import Mathlib

/-!
Verification of the commit-rewrite pipeline (`commit_rewriter.py`, `git_utils.py`,
`ai_client.py`).

The Python functions are shallowly embedded as pure Lean functions.  The external
text-generation capability (`get_ai_response` with a valid API key) is modelled as an
oracle `AIOracle : String → Nat → Option String` taking the prompt and `max_tokens`
and returning the stripped response text, or `none` when the request fails (the
Python function catches request exceptions and returns `None`).  The version-control
collaborator `get_diff` is modelled as a function `String → String` from sha to diff
text.  Strings are Lean `String`s; Python `len`/slicing act on characters, matching
`String.length`/`String.take` for the inputs considered.
-/

set_option maxHeartbeats 1600000
set_option maxRecDepth 4096

namespace CommitRewrite

/-- The text-generation collaborator: prompt and max_tokens to optional response. -/
abbrev AIOracle := String → Nat → Option String

/-! ### Generic helpers -/

/-- Python `lst[-n:]`: the last `n` elements (the whole list when shorter). -/
def takeLast {α : Type} (l : List α) (n : Nat) : List α :=
  (l.reverse.take n).reverse

/-- Python `pat in s` substring test. -/
def strContains (s pat : String) : Bool :=
  (List.range (s.data.length + 1)).any
    (fun i => ((s.data.drop i).take pat.data.length) == pat.data)

/-- Python `s[:n]` character slicing. -/
def pyTake (s : String) (n : Nat) : String :=
  String.mk (s.data.take n)

/-- Split a character list at every separator satisfying `p`, keeping empty
pieces (the behaviour of Python `str.split(sep)` for a one-character `sep`). -/
def pySplitPred (p : Char → Bool) : List Char → List (List Char)
  | [] => [[]]
  | c :: cs =>
    match pySplitPred p cs with
    | [] => if p c then [[], []] else [[c]]
    | h :: t => if p c then [] :: h :: t else (c :: h) :: t

/-- Python `s.split('\n')`. -/
def pySplitLines (s : String) : List String :=
  (pySplitPred (fun c => c = '\n') s.data).map String.mk

/-- Python `s.split()`: split on whitespace runs, dropping empty pieces. -/
def splitWs (s : String) : List String :=
  ((pySplitPred Char.isWhitespace s.data).filter (fun t => t ≠ [])).map String.mk

/-- Python `sep.join(parts)`. -/
def pyJoin (sep : String) : List String → String
  | [] => ""
  | [x] => x
  | x :: y :: t => x ++ sep ++ pyJoin sep (y :: t)

/-- Python `s.startswith(pat)`. -/
def pyStartsWith (s pat : String) : Bool :=
  s.data.take pat.data.length == pat.data

/-- Lookup in an insertion-ordered association list, modelling Python `dict`
membership and subscripting (`sha in completed_messages`, `completed_messages[sha]`). -/
def dictLookup (d : List (String × String)) (k : String) : Option String :=
  match d with
  | [] => none
  | (k', v) :: rest => if k' = k then some v else dictLookup rest k

/-- The entry transformation used by `dictInsert` on an already-present key. -/
def updEntry (k v : String) (p : String × String) : String × String :=
  if p.1 = k then (k, v) else p

/-- Python `d[k] = v` on an insertion-ordered dict: update in place when the key is
present (keeping its position), append otherwise. -/
def dictInsert (d : List (String × String)) (k v : String) : List (String × String) :=
  if (dictLookup d k).isSome then d.map (updEntry k v)
  else d ++ [(k, v)]

@[simp] theorem dictLookup_nil (x : String) : dictLookup [] x = none := rfl

theorem dictLookup_cons (k' v' : String) (tl : List (String × String)) (x : String) :
    dictLookup ((k', v') :: tl) x = if k' = x then some v' else dictLookup tl x := rfl

theorem dictLookup_map_update (k v : String) :
    ∀ (d : List (String × String)) (x : String),
      dictLookup (d.map (updEntry k v)) x
        = if x = k then (dictLookup d k).map (fun _ => v) else dictLookup d x := by
  intro d
  induction d with
  | nil => intro x; simp
  | cons hd tl ih =>
    intro x
    obtain ⟨k', w⟩ := hd
    by_cases hk : k' = k <;> by_cases hx : x = k'
    · subst hk; subst hx
      simp [dictLookup_cons, updEntry]
    · subst hk
      have hx2 : ¬ k' = x := fun h => hx h.symm
      simp [dictLookup_cons, updEntry, hx, hx2, ih]
    · subst hx
      have hxk : ¬ x = k := hk
      simp [dictLookup_cons, updEntry, hk, hxk]
    · have hx2 : ¬ k' = x := fun h => hx h.symm
      simp [dictLookup_cons, updEntry, hk, hx2, ih]

theorem dictLookup_append_new (k v : String) :
    ∀ (d : List (String × String)) (x : String), dictLookup d k = none →
      dictLookup (d ++ [(k, v)]) x = if x = k then some v else dictLookup d x := by
  intro d
  induction d with
  | nil =>
    intro x _
    by_cases hx : x = k
    · subst hx; simp [dictLookup_cons]
    · have hx' : ¬ k = x := fun h => hx h.symm
      simp [dictLookup_cons, hx, hx']
  | cons hd tl ih =>
    intro x hnone
    obtain ⟨k', w⟩ := hd
    have hk : ¬ k' = k := by
      intro h
      rw [dictLookup_cons, if_pos h] at hnone
      exact Option.noConfusion hnone
    have hrest : dictLookup tl k = none := by
      rw [dictLookup_cons, if_neg hk] at hnone
      exact hnone
    by_cases hx : k' = x
    · subst hx
      simp [dictLookup_cons, hk]
    · simp [dictLookup_cons, hx, ih x hrest]

/-- The fundamental property of `dictInsert`: lookups see the newly inserted value at
the inserted key and are untouched elsewhere. -/
theorem dictInsert_lookup (d : List (String × String)) (k v x : String) :
    dictLookup (dictInsert d k v) x = if x = k then some v else dictLookup d x := by
  unfold dictInsert
  cases hd : dictLookup d k with
  | some w =>
    rw [if_pos (by simp [hd]), dictLookup_map_update, hd]
    rfl
  | none =>
    rw [if_neg (by simp [hd])]
    exact dictLookup_append_new k v d x hd

theorem dictInsert_lookup_same (d : List (String × String)) (k v : String)
    (h : dictLookup d k = some v) (x : String) :
    dictLookup (dictInsert d k v) x = dictLookup d x := by
  rw [dictInsert_lookup]
  split
  · next hx => subst hx; exact h.symm
  · rfl

/-! ### Diff summarizer (`summarize_diff`, commit_rewriter.py lines 27-100)

The embedding returns the produced value together with the number of
`get_ai_response` invocations made.  The Python function's declared return type is
`str`, but on the meta-summary path it returns `get_ai_response(...)` directly,
which is `None` when the request fails; the result type is therefore
`Option String`. -/

/-- The chunking loop (lines 45-57): accumulate lines until the running character
count reaches `chunk_size`, then flush; a final partial chunk is kept. -/
def chunkLoop (chunk_size : Nat) : List String → List String → Nat → List String
  | [], cur, _ => if cur = [] then [] else [pyJoin "\n" cur]
  | l :: ls, cur, size =>
    let cur2 := cur ++ [l]
    let size2 := size + l.length
    if chunk_size ≤ size2 then
      pyJoin "\n" cur2 :: chunkLoop chunk_size ls [] 0
    else
      chunkLoop chunk_size ls cur2 size2

/-- The per-chunk prompt (lines 73-77). -/
def chunkPromptFor (chunk_size : Nat) (chunk : String) : String :=
  "Summarize this code diff chunk in 3-4 bullet points. Focus on WHAT changed (files, functions, logic), and WHY it matters:\n\n"
    ++ pyTake chunk chunk_size

/-- The meta-summary prompt (lines 93-97). -/
def metaPromptFor (chunk_size : Nat) (combined : String) : String :=
  "Combine these diff summaries into a cohesive overview. Group related changes and highlight the main purpose:\n\n"
    ++ pyTake combined (chunk_size * 2)

/-- Best-effort local extraction when the per-chunk generation fails (lines 84-85):
file names from lines beginning with `+++`, capped to 3. -/
def partFallback (i : Nat) (chunk : String) : String :=
  "=== Part " ++ toString (i + 1) ++ " ===\n- Changes to: " ++
    pyJoin ", "
      ((((pySplitLines chunk).filter (fun l => pyStartsWith l "+++")).map
        (fun l => (splitWs l).getLastD "")).take 3)

/-- Summarize one chunk (lines 67-85), returning the summary text and the number
of generation calls (0 or 1).  A chunk carrying the truncation marker is replaced
by a fixed placeholder without a call; a failed or empty response falls back to
`partFallback` (Python `if summary:` is false for both `None` and `""`). -/
def summarizeChunk (gen : AIOracle) (chunk_size i : Nat) (chunk : String) :
    String × Nat :=
  if strContains chunk "... (diff truncated)" then
    ("... (additional changes truncated)", 0)
  else
    match gen (chunkPromptFor chunk_size chunk) 600 with
    | some s =>
      if s = "" then (partFallback i chunk, 1)
      else ("=== Part " ++ toString (i + 1) ++ " ===\n" ++ s, 1)
    | none => (partFallback i chunk, 1)

/-- `summarize_diff(diff, chunk_size, max_total)` (lines 27-100), instrumented with
the number of `get_ai_response` invocations. -/
def summarize_diff (gen : AIOracle) (diff : String) (chunk_size max_total : Nat) :
    Option String × Nat :=
  if diff.length ≤ chunk_size then (some diff, 0)
  else
    let diff2 := if max_total < diff.length then pyTake diff max_total ++ "\n... (diff truncated)" else diff
    let chunks := chunkLoop chunk_size (pySplitLines diff2) [] 0
    if chunks.length = 1 then (some (chunks.headD ""), 0)
    else
      let results := chunks.enum.map (fun p => summarizeChunk gen chunk_size p.1 p.2)
      let combined := pyJoin "\n\n" (results.map Prod.fst)
      let calls := (results.map Prod.snd).sum
      if chunk_size < combined.length then
        (gen (metaPromptFor chunk_size combined) 700, calls + 1)
      else (some combined, calls)

/-! ### Message generator (`generate_commit_message`, lines 102-137) -/

/-- Python's f-string rendering of an optional string: `None` prints as "None". -/
def pyStrOfOpt : Option String → String
  | some s => s
  | none => "None"

/-- The large-diff prompt (lines 112-123). -/
def bigPrompt (summarized history_summary : String) : String :=
  "Generate a professional commit message for these code changes.\nPrevious 3 commits:\n"
    ++ history_summary
    ++ "\n\n=== CHANGES ===\n"
    ++ summarized
    ++ "\n\nRequirements:\n- Use conventional commit format: type(scope): description\n- Title max 72 chars, be specific\n- Body should explain the key changes and motivation\n- Max 500 chars in body\n- Focus on the WHY and WHAT, not implementation details"

/-- The small-diff prompt (lines 126-135). -/
def smallPrompt (diff history_summary : String) : String :=
  "Generate a professional commit message for this code change.\nPrevious 3 commits:\n"
    ++ history_summary
    ++ "\n\n=== DIFF ===\n"
    ++ diff
    ++ "\n\nRequirements:\n- Use conventional commit format: type(scope): description\n- Title max 72 chars\n- Body explains key changes\n- Max 500 chars in body"

/-- Python `x or "chore: update code"` on the optional response: `None` and the
empty string are falsy. -/
def orFallback : Option String → String
  | some s => if s = "" then "chore: update code" else s
  | none => "chore: update code"

/-- The prompt used by the final `get_ai_response(prompt, max_tokens=300)` call of
`generate_commit_message` (line 137), as a function of the input. -/
def finalPromptOf (gen : AIOracle) (diff history_summary : String) : String :=
  if 1000000 < diff.length then
    bigPrompt (pyStrOfOpt (summarize_diff gen diff 1000000 6000000).1) history_summary
  else smallPrompt diff history_summary

/-- `generate_commit_message(diff, history_summary)` (lines 102-137), instrumented
with the number of `get_ai_response` invocations. -/
def generate_commit_message (gen : AIOracle) (diff history_summary : String) :
    String × Nat :=
  if 1000000 < diff.length then
    let r := summarize_diff gen diff 1000000 6000000
    (orFallback (gen (bigPrompt (pyStrOfOpt r.1) history_summary) 300), r.2 + 1)
  else
    (orFallback (gen (smallPrompt diff history_summary) 300), 1)

theorem generate_commit_message_fst (gen : AIOracle) (diff history_summary : String) :
    (generate_commit_message gen diff history_summary).1
      = orFallback (gen (finalPromptOf gen diff history_summary) 300) := by
  unfold generate_commit_message finalPromptOf
  split <;> rfl

/-! ### Commit listing (`get_commits`, git_utils.py lines 6-18)

`git log -n --reverse --pretty=format:%H %s base` prints the selected commits
oldest-first, one `"<sha> <subject>"` line each (commit limiting applies before
`--reverse`).  The Python code walks `lines[::-1]` — newest first — and splits each
line at the first space. -/

/-- A parsed commit record (`{'sha': ..., 'message': ..., 'index': ...}`). -/
structure Commit where
  sha : String
  message : String
  index : Nat
deriving DecidableEq, Repr

/-- Python `line.split(' ', 1)`: the part before the first space and the remainder,
or `none` when the line has no space. -/
def breakAtSpace : List Char → Option (List Char × List Char)
  | [] => none
  | c :: cs =>
    if c = ' ' then some ([], cs)
    else
      match breakAtSpace cs with
      | some (a, b) => some (c :: a, b)
      | none => none

/-- Parse one log line into a Commit with the given index (lines 12-17):
`parts[0]` is the sha, `parts[1]` (or `''`) the message. -/
def parseLogLine (i : Nat) (line : String) : Commit :=
  match breakAtSpace line.data with
  | some (a, b) => { sha := String.mk a, message := String.mk b, index := i }
  | none => { sha := line, message := "", index := i }

/-- `get_commits` on the stdout lines of the underlying log (oldest-first):
iterate over `lines[::-1]` (newest first) with enumeration. -/
def get_commits (lines : List String) : List Commit :=
  lines.reverse.enum.map (fun p => parseLogLine p.1 p.2)

/-! ### Rewrite orchestrator (`rewrite_commits`, commit_rewriter.py lines 476-524)

The loop state carries the insertion-ordered `completed_messages` dict, the rolling
`history_entries` window and its joined `history_summary`, the accumulated
`commits_with_messages` plan, the sequence of checkpoints passed to
`save_checkpoint` (one per processed commit, in order — each entry models one
overwrite of the checkpoint file), counters for `generate_commit_message`
invocations and `get_diff` fetches, and the lines printed by the loop body. -/

/-- The persisted checkpoint object (`checkpoint_data`, lines 520-523). -/
structure Checkpoint where
  completed_messages : List (String × String)
  history_summary : String
deriving DecidableEq, Repr

/-- The `mode` parameter of `rewrite_commits`. -/
inductive Mode
  | dryRun
  | apply
deriving DecidableEq, Repr

structure RunState where
  completed : List (String × String)
  history_entries : List String
  history_summary : String
  plan : List (String × String)
  saves : List Checkpoint
  genCalls : Nat
  diffFetches : Nat
  output : List String
deriving DecidableEq, Repr

/-- The common tail of one loop iteration (lines 509-524): slide the history
window, extend the plan, update the cache, and save the checkpoint. -/
def advanceState (st : RunState) (c : Commit) (new_msg : String)
    (genInc diffInc : Nat) (out : List String) : RunState :=
  let he0 := if 3 ≤ st.history_entries.length then st.history_entries.tail else st.history_entries
  let he := he0 ++ [pyTake c.sha 8 ++ " " ++ new_msg]
  let hs := pyJoin "\n" he
  let completed := dictInsert st.completed c.sha new_msg
  { completed := completed
    history_entries := he
    history_summary := hs
    plan := st.plan ++ [(c.sha, new_msg)]
    saves := st.saves ++ [{ completed_messages := completed, history_summary := hs }]
    genCalls := st.genCalls + genInc
    diffFetches := st.diffFetches + diffInc
    output := st.output ++ out }

/-- The cache-hit print (line 499). -/
def cachedOutput (m : String) : List String :=
  ["  Reusing cached message: " ++ pyTake m 60 ++ "..."]

/-- The cache-miss prints (lines 501, 505-507); the old/new preview is printed
only in dry-run mode. -/
def freshOutput (mode : Mode) (c : Commit) (new_msg : String) : List String :=
  "  Generating new message..." ::
    (if mode = Mode.dryRun then ["  Old: " ++ c.message, "  New: " ++ new_msg ++ "\n"] else [])

/-- One iteration of the main loop (lines 493-524): reuse the cached message when
the sha is a key of `completed_messages`, otherwise fetch the diff and invoke the
message generator. -/
def processCommit (gen : AIOracle) (get_diff : String → String) (mode : Mode)
    (st : RunState) (c : Commit) : RunState :=
  match dictLookup st.completed c.sha with
  | some m => advanceState st c m 0 0 (cachedOutput m)
  | none =>
    let diff := get_diff c.sha
    let new_msg := (generate_commit_message gen diff st.history_summary).1
    advanceState st c new_msg 1 1 (freshOutput mode c new_msg)

/-- The message an iteration settles on, as a function of the incoming state. -/
def commitMsg (gen : AIOracle) (get_diff : String → String) (st : RunState)
    (c : Commit) : String :=
  match dictLookup st.completed c.sha with
  | some m => m
  | none => (generate_commit_message gen (get_diff c.sha) st.history_summary).1

/-- The run-start state (lines 479-487): load the checkpoint, take
`completed_messages`, and seed the history window from its last 3 entries. -/
def initState (checkpoint : Checkpoint) : RunState :=
  let completed := checkpoint.completed_messages
  let he := (takeLast completed 3).map (fun p => pyTake p.1 8 ++ " " ++ p.2)
  { completed := completed
    history_entries := he
    history_summary := pyJoin "\n" he
    plan := []
    saves := []
    genCalls := 0
    diffFetches := 0
    output := [] }

/-- The message-generation phase of `rewrite_commits` over an oldest-first commit
list. -/
def runCommits (gen : AIOracle) (get_diff : String → String) (mode : Mode)
    (commits : List Commit) (checkpoint : Checkpoint) : RunState :=
  commits.foldl (processCommit gen get_diff mode) (initState checkpoint)

/-- `rewrite_commits` (line 478): the commit-listing collaborator's output is
reversed into oldest-first order before the loop. -/
def rewrite_commits (gen : AIOracle) (get_diff : String → String) (mode : Mode)
    (logLines : List String) (checkpoint : Checkpoint) : RunState :=
  runCommits gen get_diff mode ((get_commits logLines).reverse) checkpoint

/-! ### Structural lemmas about one loop iteration -/

section LoopLemmas

variable (gen : AIOracle) (get_diff : String → String) (mode : Mode)
variable (st : RunState) (c : Commit)

theorem processCommit_plan :
    (processCommit gen get_diff mode st c).plan
      = st.plan ++ [(c.sha, commitMsg gen get_diff st c)] := by
  cases h : dictLookup st.completed c.sha <;>
    simp [processCommit, commitMsg, advanceState, h]

theorem processCommit_completed :
    (processCommit gen get_diff mode st c).completed
      = dictInsert st.completed c.sha (commitMsg gen get_diff st c) := by
  cases h : dictLookup st.completed c.sha <;>
    simp [processCommit, commitMsg, advanceState, h]

theorem processCommit_genCalls :
    (processCommit gen get_diff mode st c).genCalls
      = st.genCalls + (if (dictLookup st.completed c.sha).isSome then 0 else 1) := by
  cases h : dictLookup st.completed c.sha <;>
    simp [processCommit, advanceState, h]

theorem processCommit_diffFetches :
    (processCommit gen get_diff mode st c).diffFetches
      = st.diffFetches + (if (dictLookup st.completed c.sha).isSome then 0 else 1) := by
  cases h : dictLookup st.completed c.sha <;>
    simp [processCommit, advanceState, h]

theorem processCommit_history :
    (processCommit gen get_diff mode st c).history_entries
      = (if 3 ≤ st.history_entries.length then st.history_entries.tail
          else st.history_entries)
        ++ [pyTake c.sha 8 ++ " " ++ commitMsg gen get_diff st c] := by
  cases h : dictLookup st.completed c.sha <;>
    simp [processCommit, commitMsg, advanceState, h]

theorem processCommit_history_summary :
    (processCommit gen get_diff mode st c).history_summary
      = pyJoin "\n" (processCommit gen get_diff mode st c).history_entries := by
  cases h : dictLookup st.completed c.sha <;>
    simp [processCommit, advanceState, h]

theorem processCommit_saves :
    (processCommit gen get_diff mode st c).saves
      = st.saves
        ++ [{ completed_messages := (processCommit gen get_diff mode st c).completed
              history_summary := (processCommit gen get_diff mode st c).history_summary }] := by
  cases h : dictLookup st.completed c.sha <;>
    simp [processCommit, advanceState, h]

/-- On a cache hit, every lookup into `completed_messages` is unchanged (the hit
re-inserts the value it just read). -/
theorem processCommit_lookup_hit (m : String)
    (h : dictLookup st.completed c.sha = some m) (x : String) :
    dictLookup (processCommit gen get_diff mode st c).completed x
      = dictLookup st.completed x := by
  rw [processCommit_completed]
  have hm : commitMsg gen get_diff st c = m := by simp [commitMsg, h]
  rw [hm]
  exact dictInsert_lookup_same st.completed c.sha m h x

theorem processCommit_lookup (x : String) :
    dictLookup (processCommit gen get_diff mode st c).completed x
      = if x = c.sha then some (commitMsg gen get_diff st c)
        else dictLookup st.completed x := by
  rw [processCommit_completed]
  exact dictInsert_lookup _ _ _ _

end LoopLemmas

/-! ### Fold lemmas over the commit list -/

section FoldLemmas

variable (gen : AIOracle) (get_diff : String → String) (mode : Mode)

theorem run_plan_fst :
    ∀ (cs : List Commit) (st : RunState),
      ((cs.foldl (processCommit gen get_diff mode) st).plan).map Prod.fst
        = st.plan.map Prod.fst ++ cs.map (fun c => c.sha) := by
  intro cs
  induction cs with
  | nil => intro st; simp
  | cons c rest ih =>
    intro st
    rw [List.foldl_cons, ih, processCommit_plan]
    simp

theorem run_plan_length :
    ∀ (cs : List Commit) (st : RunState),
      (cs.foldl (processCommit gen get_diff mode) st).plan.length
        = st.plan.length + cs.length := by
  intro cs st
  have h := congrArg List.length (run_plan_fst gen get_diff mode cs st)
  simpa using h

/-- Processing a run of commits whose shas are all cache hits: no generator call,
no diff fetch, the plan extended with exactly the cached entries, and all cache
lookups unchanged. -/
theorem run_cached :
    ∀ (cs : List Commit) (st : RunState),
      (∀ c ∈ cs, (dictLookup st.completed c.sha).isSome) →
      (cs.foldl (processCommit gen get_diff mode) st).genCalls = st.genCalls
      ∧ (cs.foldl (processCommit gen get_diff mode) st).diffFetches = st.diffFetches
      ∧ (cs.foldl (processCommit gen get_diff mode) st).plan
          = st.plan ++ cs.map (fun c => (c.sha, (dictLookup st.completed c.sha).getD ""))
      ∧ ∀ x, dictLookup (cs.foldl (processCommit gen get_diff mode) st).completed x
          = dictLookup st.completed x := by
  intro cs
  induction cs with
  | nil => intro st _; simp
  | cons c rest ih =>
    intro st hall
    obtain ⟨m, hm⟩ := Option.isSome_iff_exists.mp (hall c (by simp))
    have hmsg : commitMsg gen get_diff st c = m := by simp [commitMsg, hm]
    have hlook : ∀ x, dictLookup (processCommit gen get_diff mode st c).completed x
        = dictLookup st.completed x :=
      processCommit_lookup_hit gen get_diff mode st c m hm
    have hrest : ∀ c' ∈ rest,
        (dictLookup (processCommit gen get_diff mode st c).completed c'.sha).isSome := by
      intro c' hc'
      rw [hlook]
      exact hall c' (by simp [hc'])
    obtain ⟨ihg, ihd, ihp, ihl⟩ := ih (processCommit gen get_diff mode st c) hrest
    refine ⟨?_, ?_, ?_, ?_⟩
    · rw [List.foldl_cons, ihg, processCommit_genCalls, hm]
      simp
    · rw [List.foldl_cons, ihd, processCommit_diffFetches, hm]
      simp
    · rw [List.foldl_cons, ihp, processCommit_plan, hmsg]
      have hmaps : rest.map (fun c' =>
            (c'.sha, (dictLookup (processCommit gen get_diff mode st c).completed c'.sha).getD ""))
          = rest.map (fun c' => (c'.sha, (dictLookup st.completed c'.sha).getD "")) := by
        apply List.map_congr_left
        intro c' _
        rw [hlook]
      rw [hmaps]
      simp [hm]
    · intro x
      rw [List.foldl_cons, ihl, hlook]

/-- Processing a run of commits with pairwise distinct shas, none of which is
cached: one generator call and one diff fetch per commit. -/
theorem run_uncached :
    ∀ (cs : List Commit) (st : RunState),
      (cs.map (fun c => c.sha)).Nodup →
      (∀ c ∈ cs, dictLookup st.completed c.sha = none) →
      (cs.foldl (processCommit gen get_diff mode) st).genCalls = st.genCalls + cs.length
      ∧ (cs.foldl (processCommit gen get_diff mode) st).diffFetches
          = st.diffFetches + cs.length := by
  intro cs
  induction cs with
  | nil => intro st _ _; simp
  | cons c rest ih =>
    intro st hnd hnone
    have hc : dictLookup st.completed c.sha = none := hnone c (by simp)
    rw [List.map_cons, List.nodup_cons] at hnd
    have hnd' : (rest.map (fun c => c.sha)).Nodup := hnd.2
    have hsha : c.sha ∉ rest.map (fun c => c.sha) := hnd.1
    have hrest : ∀ c' ∈ rest,
        dictLookup (processCommit gen get_diff mode st c).completed c'.sha = none := by
      intro c' hc'
      rw [processCommit_lookup]
      have hne : ¬ c'.sha = c.sha := by
        intro h
        exact hsha (by
          rw [← h]
          exact List.mem_map_of_mem (fun c => c.sha) hc')
      rw [if_neg hne]
      exact hnone c' (by simp [hc'])
    obtain ⟨ihg, ihd⟩ := ih (processCommit gen get_diff mode st c) hnd' hrest
    constructor
    · rw [List.foldl_cons, ihg, processCommit_genCalls, hc]
      simp [Nat.add_assoc, Nat.add_comm 1 rest.length]
    · rw [List.foldl_cons, ihd, processCommit_diffFetches, hc]
      simp [Nat.add_assoc, Nat.add_comm 1 rest.length]

theorem run_plan_extends :
    ∀ (cs : List Commit) (st : RunState),
      ∃ extra, (cs.foldl (processCommit gen get_diff mode) st).plan = st.plan ++ extra
        ∧ extra.length = cs.length := by
  intro cs
  induction cs with
  | nil => intro st; exact ⟨[], by simp, rfl⟩
  | cons c rest ih =>
    intro st
    obtain ⟨extra, hplan, hlen⟩ := ih (processCommit gen get_diff mode st c)
    refine ⟨(c.sha, commitMsg gen get_diff st c) :: extra, ?_, by simp [hlen]⟩
    rw [List.foldl_cons, hplan, processCommit_plan]
    simp

end FoldLemmas

/-! ### Sample data used by the witnesses -/

def wGen : AIOracle := fun _ _ => some "fix: two"

def wDiff : String → String := fun _ => "diffB"

def wCommits : List Commit :=
  [{ sha := "aaaa1111", message := "old one", index := 1 },
   { sha := "bbbb2222", message := "old two", index := 0 }]

def wCkpt : Checkpoint :=
  { completed_messages := [("aaaa1111", "feat: one")]
    history_summary := "aaaa1111 feat: one" }

/-! ### Claim C1 -/

/-- C1: Resumability and cache idempotence of the orchestrator.  For a run over a
commit list with pairwise distinct shas whose first `k` shas are exactly the cached
ones, the loop invokes the message generator and the diff fetch exactly
`n - k` times, and the plan's first `k` entries are the cached `(sha, message)`
pairs verbatim; when `k = n` and the cached mapping lists the commits in order, the
generator is invoked zero times and the plan equals the cached mapping. -/
theorem C1_resumable_cache (gen : AIOracle) (get_diff : String → String) (mode : Mode)
    (commits : List Commit) (ckpt : Checkpoint) (k : Nat)
    (hk : k ≤ commits.length)
    (hnd : (commits.map (fun c => c.sha)).Nodup)
    (hcached : ∀ c ∈ commits.take k, (dictLookup ckpt.completed_messages c.sha).isSome)
    (hmiss : ∀ c ∈ commits.drop k, dictLookup ckpt.completed_messages c.sha = none) :
    (runCommits gen get_diff mode commits ckpt).genCalls = commits.length - k
    ∧ (runCommits gen get_diff mode commits ckpt).diffFetches = commits.length - k
    ∧ (runCommits gen get_diff mode commits ckpt).plan.length = commits.length
    ∧ (runCommits gen get_diff mode commits ckpt).plan.take k
        = (commits.take k).map
            (fun c => (c.sha, (dictLookup ckpt.completed_messages c.sha).getD ""))
    ∧ (k = commits.length →
        ckpt.completed_messages
            = commits.map
                (fun c => (c.sha, (dictLookup ckpt.completed_messages c.sha).getD "")) →
        (runCommits gen get_diff mode commits ckpt).genCalls = 0
        ∧ (runCommits gen get_diff mode commits ckpt).plan = ckpt.completed_messages) := by
  have hsplit : commits.take k ++ commits.drop k = commits := List.take_append_drop k commits
  have hfold : runCommits gen get_diff mode commits ckpt
      = (commits.drop k).foldl (processCommit gen get_diff mode)
          ((commits.take k).foldl (processCommit gen get_diff mode) (initState ckpt)) := by
    rw [runCommits]
    conv_lhs => rw [← hsplit]
    rw [List.foldl_append]
  have hinit_completed : (initState ckpt).completed = ckpt.completed_messages := rfl
  have hcached' : ∀ c ∈ commits.take k,
      (dictLookup (initState ckpt).completed c.sha).isSome := by
    intro c hc; rw [hinit_completed]; exact hcached c hc
  obtain ⟨hg1, hd1, hp1, hl1⟩ :=
    run_cached gen get_diff mode (commits.take k) (initState ckpt) hcached'
  set st1 := (commits.take k).foldl (processCommit gen get_diff mode) (initState ckpt) with hst1
  have hndDrop : ((commits.drop k).map (fun c => c.sha)).Nodup := by
    have hsub : List.Sublist ((commits.drop k).map (fun c => c.sha))
        (commits.map (fun c => c.sha)) :=
      List.Sublist.map (fun c => c.sha) (List.drop_sublist k commits)
    exact List.Nodup.sublist hsub hnd
  have hmiss' : ∀ c ∈ commits.drop k, dictLookup st1.completed c.sha = none := by
    intro c hc
    rw [hl1, hinit_completed]
    exact hmiss c hc
  obtain ⟨hg2, hd2⟩ := run_uncached gen get_diff mode (commits.drop k) st1 hndDrop hmiss'
  have hg0 : (initState ckpt).genCalls = 0 := rfl
  have hd0 : (initState ckpt).diffFetches = 0 := rfl
  have htklen : (commits.take k).length = k := by
    rw [List.length_take]
    exact Nat.min_eq_left hk
  have hdplen : (commits.drop k).length = commits.length - k := List.length_drop k commits
  have hgen : (runCommits gen get_diff mode commits ckpt).genCalls = commits.length - k := by
    rw [hfold, hg2, hg1, hg0, hdplen, Nat.zero_add]
  have hdiff : (runCommits gen get_diff mode commits ckpt).diffFetches
      = commits.length - k := by
    rw [hfold, hd2, hd1, hd0, hdplen, Nat.zero_add]
  have hplanlen : (runCommits gen get_diff mode commits ckpt).plan.length
      = commits.length := by
    have hlen := run_plan_length gen get_diff mode commits (initState ckpt)
    rw [runCommits, hlen]
    simp [initState]
  have hp1' : st1.plan
      = (commits.take k).map
          (fun c => (c.sha, (dictLookup ckpt.completed_messages c.sha).getD "")) := by
    rw [hp1, hinit_completed]
    rfl
  have hp1len : st1.plan.length = k := by
    rw [hp1', List.length_map, htklen]
  have htake : (runCommits gen get_diff mode commits ckpt).plan.take k
      = (commits.take k).map
          (fun c => (c.sha, (dictLookup ckpt.completed_messages c.sha).getD "")) := by
    obtain ⟨extra, hext, _⟩ :=
      run_plan_extends gen get_diff mode (commits.drop k) st1
    conv_lhs => rw [hfold, hext, ← hp1len]
    rw [List.take_left, hp1']
  refine ⟨hgen, hdiff, hplanlen, htake, ?_⟩
  intro hkn hins
  have hgen0 : (runCommits gen get_diff mode commits ckpt).genCalls = 0 := by
    rw [hgen, hkn, Nat.sub_self]
  refine ⟨hgen0, ?_⟩
  have hplen : (runCommits gen get_diff mode commits ckpt).plan.length = k := by
    rw [hplanlen, hkn]
  have : (runCommits gen get_diff mode commits ckpt).plan.take k
      = (runCommits gen get_diff mode commits ckpt).plan := by
    rw [← hplen, List.take_length]
  rw [← this, htake, hkn, List.take_length, ← hins]

/-- Witness for C1 at a concrete two-commit run with one cached sha. -/
theorem C1_resumable_cache_witness :
    (1 ≤ wCommits.length
      ∧ (wCommits.map (fun c => c.sha)).Nodup
      ∧ (∀ c ∈ wCommits.take 1, (dictLookup wCkpt.completed_messages c.sha).isSome)
      ∧ (∀ c ∈ wCommits.drop 1, dictLookup wCkpt.completed_messages c.sha = none))
    ∧ ((runCommits wGen wDiff Mode.dryRun wCommits wCkpt).genCalls = wCommits.length - 1
      ∧ (runCommits wGen wDiff Mode.dryRun wCommits wCkpt).diffFetches = wCommits.length - 1
      ∧ (runCommits wGen wDiff Mode.dryRun wCommits wCkpt).plan.length = wCommits.length
      ∧ (runCommits wGen wDiff Mode.dryRun wCommits wCkpt).plan.take 1
          = (wCommits.take 1).map
              (fun c => (c.sha, (dictLookup wCkpt.completed_messages c.sha).getD ""))
      ∧ (1 = wCommits.length →
          wCkpt.completed_messages
              = wCommits.map
                  (fun c => (c.sha, (dictLookup wCkpt.completed_messages c.sha).getD "")) →
          (runCommits wGen wDiff Mode.dryRun wCommits wCkpt).genCalls = 0
          ∧ (runCommits wGen wDiff Mode.dryRun wCommits wCkpt).plan
              = wCkpt.completed_messages)) :=
  ⟨⟨by decide, by decide, by decide, by decide⟩,
   C1_resumable_cache wGen wDiff Mode.dryRun wCommits wCkpt 1
     (by decide) (by decide) (by decide) (by decide)⟩

/-! ### Claim C7 -/

/-- C7: Small-diff fast path identity.  For a diff whose length is at most
`chunk_size`, `summarize_diff` returns the diff unchanged and performs zero
text-generation calls. -/
theorem C7_small_diff_fast_path (gen : AIOracle) (diff : String)
    (chunk_size max_total : Nat) (h : diff.length ≤ chunk_size) :
    summarize_diff gen diff chunk_size max_total = (some diff, 0) := by
  unfold summarize_diff
  rw [if_pos h]

/-- Witness for C7 at a concrete small diff. -/
theorem C7_small_diff_fast_path_witness :
    ("abc".length ≤ 10)
    ∧ summarize_diff (fun _ _ => none) "abc" 10 100 = (some "abc", 0) :=
  ⟨by decide, C7_small_diff_fast_path (fun _ _ => none) "abc" 10 100 (by decide)⟩

/-! ### Claim C3 -/

/-- The history-window entry derived from a plan pair, `"{short_sha} {message}"`. -/
def entryOf (p : String × String) : String :=
  pyTake p.1 8 ++ " " ++ p.2

theorem takeLast_length_le {α : Type} (l : List α) (n : Nat) :
    (takeLast l n).length ≤ n := by
  simp [takeLast]

theorem takeLast_of_length_le {α : Type} (l : List α) (n : Nat) (h : l.length ≤ n) :
    takeLast l n = l := by
  unfold takeLast
  rw [List.take_of_length_le (by simpa using h), List.reverse_reverse]

theorem takeLast_append_left {α : Type} (a b : List α) (n : Nat) :
    takeLast (takeLast a n ++ b) n = takeLast (a ++ b) n := by
  unfold takeLast
  rw [List.reverse_append, List.reverse_reverse, List.reverse_append]
  congr 1
  rw [List.take_append_eq_append_take, List.take_append_eq_append_take, List.take_take,
    Nat.min_eq_left (Nat.sub_le n b.reverse.length)]

theorem takeLast_append_of_le {α : Type} (a b : List α) (n : Nat) (h : n ≤ b.length) :
    takeLast (a ++ b) n = takeLast b n := by
  unfold takeLast
  rw [List.reverse_append, List.take_append_of_le_length (by simpa using h)]

theorem takeLast_length_eq {α : Type} (l : List α) (n : Nat) (h : n ≤ l.length) :
    (takeLast l n).length = n := by
  simp [takeLast]
  omega

/-- The history-window slide of one iteration, viewed as keeping the last 3 of the
extended window. -/
theorem history_slide (he : List String) (e : String) (hle : he.length ≤ 3) :
    (if 3 ≤ he.length then he.tail else he) ++ [e] = takeLast (he ++ [e]) 3 := by
  by_cases h3 : 3 ≤ he.length
  · have hlen : he.length = 3 := Nat.le_antisymm hle h3
    obtain ⟨a, b, c, rfl⟩ := List.length_eq_three.mp hlen
    rw [if_pos h3]
    rfl
  · have hlen : (he ++ [e]).length ≤ 3 := by
      rw [List.length_append, List.length_singleton]
      omega
    rw [if_neg h3, takeLast_of_length_le _ _ hlen]

/-- Invariant of the fold: the history window always has length at most 3 and
consists of the last 3 entries of the seeded window extended by one
`"{short_sha} {message}"` entry per processed commit, in processing order. -/
theorem run_history (gen : AIOracle) (get_diff : String → String) (mode : Mode) :
    ∀ (cs : List Commit) (st : RunState), st.history_entries.length ≤ 3 →
      (cs.foldl (processCommit gen get_diff mode) st).history_entries.length ≤ 3
      ∧ ∃ extra, (cs.foldl (processCommit gen get_diff mode) st).plan = st.plan ++ extra
          ∧ extra.length = cs.length
          ∧ (cs.foldl (processCommit gen get_diff mode) st).history_entries
              = takeLast (st.history_entries ++ extra.map entryOf) 3 := by
  intro cs
  induction cs with
  | nil =>
    intro st hle
    exact ⟨hle, [], by simp, rfl, by simp [takeLast_of_length_le _ _ hle]⟩
  | cons c rest ih =>
    intro st hle
    have hhe : (processCommit gen get_diff mode st c).history_entries
        = takeLast (st.history_entries ++ [entryOf (c.sha, commitMsg gen get_diff st c)]) 3 := by
      rw [processCommit_history, ← history_slide _ _ hle]
      rfl
    have hle' : (processCommit gen get_diff mode st c).history_entries.length ≤ 3 := by
      rw [hhe]; exact takeLast_length_le _ _
    obtain ⟨hlef, extra, hplan, hlen, hhef⟩ := ih (processCommit gen get_diff mode st c) hle'
    refine ⟨hlef, (c.sha, commitMsg gen get_diff st c) :: extra, ?_, by simp [hlen], ?_⟩
    · rw [List.foldl_cons, hplan, processCommit_plan]
      simp
    · rw [List.foldl_cons, hhef, hhe, takeLast_append_left]
      simp

/-- C3: History window invariant.  At every point of a run (after any prefix of
`m` commits), the rolling window has length at most 3 and equals the last 3
entries of the checkpoint-seeded window followed by the processed commits'
`"{short_sha} {message}"` entries in chronological order; once at least 3 commits
have been processed it is exactly the 3 most recent such entries, regardless of
the seed. -/
theorem C3_history_window (gen : AIOracle) (get_diff : String → String) (mode : Mode)
    (commits : List Commit) (ckpt : Checkpoint) (m : Nat) (hm : m ≤ commits.length) :
    (runCommits gen get_diff mode (commits.take m) ckpt).history_entries.length ≤ 3
    ∧ (runCommits gen get_diff mode (commits.take m) ckpt).history_entries
        = takeLast ((initState ckpt).history_entries
            ++ (runCommits gen get_diff mode (commits.take m) ckpt).plan.map entryOf) 3
    ∧ (3 ≤ m →
        (runCommits gen get_diff mode (commits.take m) ckpt).history_entries
            = takeLast ((runCommits gen get_diff mode (commits.take m) ckpt).plan.map entryOf) 3
        ∧ (runCommits gen get_diff mode (commits.take m) ckpt).history_entries.length = 3) := by
  have hseed : (initState ckpt).history_entries.length ≤ 3 := by
    show ((takeLast ckpt.completed_messages 3).map
      (fun p => pyTake p.1 8 ++ " " ++ p.2)).length ≤ 3
    rw [List.length_map]
    exact takeLast_length_le _ _
  obtain ⟨hlef, extra, hplan, hlen, hhef⟩ :=
    run_history gen get_diff mode (commits.take m) (initState ckpt) hseed
  have hplan' : (runCommits gen get_diff mode (commits.take m) ckpt).plan = extra := by
    rw [runCommits, hplan]
    rfl
  have hlen' : (runCommits gen get_diff mode (commits.take m) ckpt).plan.length = m := by
    rw [hplan', hlen, List.length_take]
    exact Nat.min_eq_left hm
  refine ⟨hlef, by rw [runCommits, hhef, ← hplan', runCommits], ?_⟩
  intro h3
  have hmaplen : 3 ≤ ((runCommits gen get_diff mode (commits.take m) ckpt).plan.map entryOf).length := by
    rw [List.length_map, hlen']
    exact h3
  have heq : (runCommits gen get_diff mode (commits.take m) ckpt).history_entries
      = takeLast ((runCommits gen get_diff mode (commits.take m) ckpt).plan.map entryOf) 3 := by
    rw [runCommits, hhef, ← hplan']
    rw [takeLast_append_of_le _ _ _ hmaplen]
    rfl
  refine ⟨heq, ?_⟩
  rw [heq]
  exact takeLast_length_eq _ _ hmaplen

/-- A four-commit oldest-first list used by witnesses that need runs of length ≥ 3. -/
def wCommits4 : List Commit :=
  [{ sha := "aaaa1111", message := "old one", index := 3 },
   { sha := "bbbb2222", message := "old two", index := 2 },
   { sha := "cccc3333", message := "old three", index := 1 },
   { sha := "dddd4444", message := "old four", index := 0 }]

/-- Witness for C3 at a concrete four-commit run with a prefix of 3. -/
theorem C3_history_window_witness :
    (3 ≤ wCommits4.length)
    ∧ ((runCommits wGen wDiff Mode.dryRun (wCommits4.take 3) wCkpt).history_entries.length ≤ 3
      ∧ (runCommits wGen wDiff Mode.dryRun (wCommits4.take 3) wCkpt).history_entries
          = takeLast ((initState wCkpt).history_entries
              ++ (runCommits wGen wDiff Mode.dryRun (wCommits4.take 3) wCkpt).plan.map entryOf) 3
      ∧ (3 ≤ 3 →
          (runCommits wGen wDiff Mode.dryRun (wCommits4.take 3) wCkpt).history_entries
              = takeLast ((runCommits wGen wDiff Mode.dryRun (wCommits4.take 3) wCkpt).plan.map entryOf) 3
          ∧ (runCommits wGen wDiff Mode.dryRun (wCommits4.take 3) wCkpt).history_entries.length = 3)) :=
  ⟨by decide,
   C3_history_window wGen wDiff Mode.dryRun wCommits4 wCkpt 3 (by decide)⟩

/-! ### Claim C9 -/

/-- All fields of the loop state except the printed output: the cache, the history
window and its join, the plan, the checkpoint saves, and the two counters. -/
def stateCore (st : RunState) :
    List (String × String) × List String × String × List (String × String)
      × List Checkpoint × Nat × Nat :=
  (st.completed, st.history_entries, st.history_summary, st.plan, st.saves,
    st.genCalls, st.diffFetches)

/-- One iteration acts identically on the core state in any two modes: `mode` only
influences what is printed. -/
theorem processCommit_core (gen : AIOracle) (get_diff : String → String)
    (m1 m2 : Mode) (st1 st2 : RunState) (c : Commit)
    (h : stateCore st1 = stateCore st2) :
    stateCore (processCommit gen get_diff m1 st1 c)
      = stateCore (processCommit gen get_diff m2 st2 c) := by
  have h1 : st1.completed = st2.completed := congrArg (fun t => t.1) h
  have h2 : st1.history_entries = st2.history_entries := congrArg (fun t => t.2.1) h
  have h3 : st1.history_summary = st2.history_summary := congrArg (fun t => t.2.2.1) h
  have h4 : st1.plan = st2.plan := congrArg (fun t => t.2.2.2.1) h
  have h5 : st1.saves = st2.saves := congrArg (fun t => t.2.2.2.2.1) h
  have h6 : st1.genCalls = st2.genCalls := congrArg (fun t => t.2.2.2.2.2.1) h
  have h7 : st1.diffFetches = st2.diffFetches := congrArg (fun t => t.2.2.2.2.2.2) h
  cases hl : dictLookup st1.completed c.sha with
  | some m =>
    have hl2 : dictLookup st2.completed c.sha = some m := by rw [← h1]; exact hl
    simp [processCommit, hl, hl2, stateCore, advanceState, h1, h2, h3, h4, h5, h6, h7]
  | none =>
    have hl2 : dictLookup st2.completed c.sha = none := by rw [← h1]; exact hl
    simp [processCommit, hl, hl2, stateCore, advanceState, h1, h2, h3, h4, h5, h6, h7]

/-- Fold version of mode independence. -/
theorem run_core (gen : AIOracle) (get_diff : String → String) (m1 m2 : Mode) :
    ∀ (cs : List Commit) (st1 st2 : RunState), stateCore st1 = stateCore st2 →
      stateCore (cs.foldl (processCommit gen get_diff m1) st1)
        = stateCore (cs.foldl (processCommit gen get_diff m2) st2) := by
  intro cs
  induction cs with
  | nil => intro st1 st2 h; exact h
  | cons c rest ih =>
    intro st1 st2 h
    rw [List.foldl_cons, List.foldl_cons]
    exact ih _ _ (processCommit_core gen get_diff m1 m2 st1 st2 c h)

/-- Every iteration appends exactly one checkpoint save, and the last save records
the final cache and history summary. -/
theorem run_saves (gen : AIOracle) (get_diff : String → String) (mode : Mode) :
    ∀ (cs : List Commit) (st : RunState),
      (cs.foldl (processCommit gen get_diff mode) st).saves.length
        = st.saves.length + cs.length
      ∧ (cs ≠ [] →
          (cs.foldl (processCommit gen get_diff mode) st).saves.getLast?
            = some { completed_messages :=
                       (cs.foldl (processCommit gen get_diff mode) st).completed
                     history_summary :=
                       (cs.foldl (processCommit gen get_diff mode) st).history_summary }) := by
  intro cs
  induction cs with
  | nil =>
    intro st
    exact ⟨by simp, fun h => absurd rfl h⟩
  | cons c rest ih =>
    intro st
    obtain ⟨ihlen, ihlast⟩ := ih (processCommit gen get_diff mode st c)
    have hstep : (processCommit gen get_diff mode st c).saves.length
        = st.saves.length + 1 := by
      rw [processCommit_saves]
      simp
    constructor
    · rw [List.foldl_cons, ihlen, hstep]
      simp [Nat.add_assoc, Nat.add_comm 1 rest.length]
    · intro _
      rw [List.foldl_cons]
      cases rest with
      | nil =>
        rw [List.foldl_nil, processCommit_saves]
        exact List.getLast?_concat _
      | cons c' rest' =>
        exact ihlast (by simp)

/-- Invariant: every plan entry's sha maps to its plan message in the cache.  A
cache hit re-inserts the value it read, so this needs no distinctness hypothesis. -/
theorem run_plan_lookup (gen : AIOracle) (get_diff : String → String) (mode : Mode) :
    ∀ (cs : List Commit) (st : RunState),
      (∀ p ∈ st.plan, dictLookup st.completed p.1 = some p.2) →
      ∀ p ∈ (cs.foldl (processCommit gen get_diff mode) st).plan,
        dictLookup (cs.foldl (processCommit gen get_diff mode) st).completed p.1
          = some p.2 := by
  intro cs
  induction cs with
  | nil => intro st h; exact h
  | cons c rest ih =>
    intro st h
    rw [List.foldl_cons]
    apply ih
    intro p hp
    rw [processCommit_plan] at hp
    rw [processCommit_lookup]
    rcases List.mem_append.mp hp with hold | hnew
    · by_cases hsha : p.1 = c.sha
      · rw [if_pos hsha]
        have hv := h p hold
        rw [hsha] at hv
        cases hmsg : dictLookup st.completed c.sha with
        | some m =>
          have : commitMsg gen get_diff st c = m := by simp [commitMsg, hmsg]
          rw [this]
          rw [hmsg] at hv
          exact hv.symm ▸ rfl
        | none =>
          rw [hmsg] at hv
          exact Option.noConfusion hv
      · rw [if_neg hsha]
        exact h p hold
    · have : p = (c.sha, commitMsg gen get_diff st c) := by simpa using hnew
      rw [this]
      simp

/-- C9: Dry-run mode is not free of persistent side effects.  After any prefix of
`m` commits, the dry-run state agrees with the apply-mode state on every field
except the printed output; one checkpoint save is issued per processed commit; the
last save records the current cache and history; and every processed commit's
`(sha, message)` plan entry is present in the cache. -/
theorem C9_dry_run_persists (gen : AIOracle) (get_diff : String → String)
    (commits : List Commit) (ckpt : Checkpoint) (m : Nat) (hm : m ≤ commits.length) :
    (runCommits gen get_diff Mode.dryRun (commits.take m) ckpt).saves.length = m
    ∧ stateCore (runCommits gen get_diff Mode.dryRun (commits.take m) ckpt)
        = stateCore (runCommits gen get_diff Mode.apply (commits.take m) ckpt)
    ∧ (m ≠ 0 →
        (runCommits gen get_diff Mode.dryRun (commits.take m) ckpt).saves.getLast?
          = some { completed_messages :=
                     (runCommits gen get_diff Mode.dryRun (commits.take m) ckpt).completed
                   history_summary :=
                     (runCommits gen get_diff Mode.dryRun (commits.take m) ckpt).history_summary })
    ∧ ∀ p ∈ (runCommits gen get_diff Mode.dryRun (commits.take m) ckpt).plan,
        dictLookup (runCommits gen get_diff Mode.dryRun (commits.take m) ckpt).completed p.1
          = some p.2 := by
  obtain ⟨hlen, hlast⟩ := run_saves gen get_diff Mode.dryRun (commits.take m) (initState ckpt)
  have htklen : (commits.take m).length = m := by
    rw [List.length_take]
    exact Nat.min_eq_left hm
  refine ⟨?_, ?_, ?_, ?_⟩
  · rw [runCommits, hlen, htklen]
    simp [initState]
  · exact run_core gen get_diff Mode.dryRun Mode.apply (commits.take m)
      (initState ckpt) (initState ckpt) rfl
  · intro hm0
    have hne : commits.take m ≠ [] := by
      intro hnil
      rw [hnil] at htklen
      exact hm0 htklen.symm
    exact hlast hne
  · apply run_plan_lookup
    intro p hp
    simp [initState] at hp

/-- Witness for C9 at a concrete one-commit dry run. -/
theorem C9_dry_run_persists_witness :
    (1 ≤ wCommits.length)
    ∧ ((runCommits wGen wDiff Mode.dryRun (wCommits.take 1) wCkpt).saves.length = 1
      ∧ stateCore (runCommits wGen wDiff Mode.dryRun (wCommits.take 1) wCkpt)
          = stateCore (runCommits wGen wDiff Mode.apply (wCommits.take 1) wCkpt)
      ∧ (1 ≠ 0 →
          (runCommits wGen wDiff Mode.dryRun (wCommits.take 1) wCkpt).saves.getLast?
            = some { completed_messages :=
                       (runCommits wGen wDiff Mode.dryRun (wCommits.take 1) wCkpt).completed
                     history_summary :=
                       (runCommits wGen wDiff Mode.dryRun (wCommits.take 1) wCkpt).history_summary })
      ∧ ∀ p ∈ (runCommits wGen wDiff Mode.dryRun (wCommits.take 1) wCkpt).plan,
          dictLookup (runCommits wGen wDiff Mode.dryRun (wCommits.take 1) wCkpt).completed p.1
            = some p.2) :=
  ⟨by decide, C9_dry_run_persists wGen wDiff wCommits wCkpt 1 (by decide)⟩

/-! ### Claim C8 -/

/-- The all-failing generation collaborator. -/
def wGenFail : AIOracle := fun _ _ => none

/-- C8: Generator failure fallback.  If the final message-generation call fails,
`generate_commit_message` returns exactly `"chore: update code"`; and the
orchestrator's loop processes every commit of the list regardless (one plan entry
per commit, in order) — a generation failure never halts the run. -/
theorem C8_generator_failure_fallback (gen : AIOracle) (get_diff : String → String)
    (mode : Mode) (commits : List Commit) (ckpt : Checkpoint)
    (diff history_summary : String)
    (hfail : gen (finalPromptOf gen diff history_summary) 300 = none) :
    (generate_commit_message gen diff history_summary).1 = "chore: update code"
    ∧ (runCommits gen get_diff mode commits ckpt).plan.map Prod.fst
        = commits.map (fun c => c.sha)
    ∧ (runCommits gen get_diff mode commits ckpt).plan.length = commits.length := by
  refine ⟨?_, ?_, ?_⟩
  · rw [generate_commit_message_fst, hfail]
    rfl
  · rw [runCommits, run_plan_fst]
    simp [initState]
  · rw [runCommits, run_plan_length]
    simp [initState]

/-- Witness for C8: the failing generator at a concrete two-commit run. -/
theorem C8_generator_failure_fallback_witness :
    (wGenFail (finalPromptOf wGenFail "d" "h") 300 = none)
    ∧ ((generate_commit_message wGenFail "d" "h").1 = "chore: update code"
      ∧ (runCommits wGenFail wDiff Mode.dryRun wCommits wCkpt).plan.map Prod.fst
          = wCommits.map (fun c => c.sha)
      ∧ (runCommits wGenFail wDiff Mode.dryRun wCommits wCkpt).plan.length
          = wCommits.length) :=
  ⟨rfl, C8_generator_failure_fallback wGenFail wDiff Mode.dryRun wCommits wCkpt "d" "h" rfl⟩

/-! ### Claim C5 -/

/-- The sha parsed from a log line: the part before the first space, or the whole
line when it has no space. -/
def shaOfLine (line : String) : String :=
  match breakAtSpace line.data with
  | some (a, _) => String.mk a
  | none => line

/-- The subject parsed from a log line: the part after the first space, or `""`. -/
def msgOfLine (line : String) : String :=
  match breakAtSpace line.data with
  | some (_, b) => String.mk b
  | none => ""

theorem parseLogLine_sha (i : Nat) (line : String) :
    (parseLogLine i line).sha = shaOfLine line := by
  unfold parseLogLine shaOfLine
  cases h : breakAtSpace line.data with
  | none => simp
  | some ab =>
    obtain ⟨a, b⟩ := ab
    simp

theorem parseLogLine_message (i : Nat) (line : String) :
    (parseLogLine i line).message = msgOfLine line := by
  unfold parseLogLine msgOfLine
  cases h : breakAtSpace line.data with
  | none => simp
  | some ab =>
    obtain ⟨a, b⟩ := ab
    simp

theorem breakAtSpace_append :
    ∀ (a b : List Char), (∀ ch ∈ a, ¬ ch = ' ') →
      breakAtSpace (a ++ ' ' :: b) = some (a, b) := by
  intro a
  induction a with
  | nil => intro b _; simp [breakAtSpace]
  | cons c cs ih =>
    intro b h
    have hc : ¬ c = ' ' := h c (by simp)
    have hrest : ∀ ch ∈ cs, ¬ ch = ' ' := fun ch hch => h ch (by simp [hch])
    rw [List.cons_append]
    unfold breakAtSpace
    rw [if_neg hc, ih b hrest]

theorem shaOfLine_joined (s m : String) (hs : ' ' ∉ s.data) :
    shaOfLine (s ++ " " ++ m) = s := by
  unfold shaOfLine
  have hdata : (s ++ " " ++ m).data = s.data ++ ' ' :: m.data := by
    rw [String.data_append, String.data_append]
    simp
  rw [hdata, breakAtSpace_append s.data m.data (fun ch hch he => hs (he ▸ hch))]

theorem msgOfLine_joined (s m : String) (hs : ' ' ∉ s.data) :
    msgOfLine (s ++ " " ++ m) = m := by
  unfold msgOfLine
  have hdata : (s ++ " " ++ m).data = s.data ++ ' ' :: m.data := by
    rw [String.data_append, String.data_append]
    simp
  rw [hdata, breakAtSpace_append s.data m.data (fun ch hch he => hs (he ▸ hch))]

theorem get_commits_map_sha (L : List String) :
    (get_commits L).map (fun c => c.sha) = L.reverse.map shaOfLine := by
  rw [get_commits, List.map_map]
  have hfc : ((fun c : Commit => c.sha) ∘ fun q : Nat × String => parseLogLine q.1 q.2)
      = (shaOfLine ∘ Prod.snd) :=
    funext fun q => parseLogLine_sha q.1 q.2
  rw [hfc, ← List.map_map, List.enum_map_snd]

theorem get_commits_map_message (L : List String) :
    (get_commits L).map (fun c => c.message) = L.reverse.map msgOfLine := by
  rw [get_commits, List.map_map]
  have hfc : ((fun c : Commit => c.message) ∘ fun q : Nat × String => parseLogLine q.1 q.2)
      = (msgOfLine ∘ Prod.snd) :=
    funext fun q => parseLogLine_message q.1 q.2
  rw [hfc, ← List.map_map, List.enum_map_snd]

/-- C5: Oldest-first ordering of the Rewrite Plan.  Given the underlying log's
oldest-first `"<sha> <subject>"` lines, `get_commits` returns the commits
newest-first, the orchestrator's `reversed(...)` restores oldest-first order, and
the resulting plan has one `(sha, message)` entry per commit in oldest-first
order, with no duplicate shas when the input shas are distinct. -/
theorem C5_oldest_first_plan (gen : AIOracle) (get_diff : String → String) (mode : Mode)
    (pairs : List (String × String)) (ckpt : Checkpoint)
    (hsp : ∀ p ∈ pairs, ' ' ∉ p.1.data) :
    (get_commits (pairs.map (fun p => p.1 ++ " " ++ p.2))).map (fun c => c.sha)
        = (pairs.map (fun p => p.1)).reverse
    ∧ ((get_commits (pairs.map (fun p => p.1 ++ " " ++ p.2))).reverse).map (fun c => c.sha)
        = pairs.map (fun p => p.1)
    ∧ ((get_commits (pairs.map (fun p => p.1 ++ " " ++ p.2))).reverse).map (fun c => c.message)
        = pairs.map (fun p => p.2)
    ∧ (rewrite_commits gen get_diff mode (pairs.map (fun p => p.1 ++ " " ++ p.2)) ckpt).plan.map Prod.fst
        = pairs.map (fun p => p.1)
    ∧ (rewrite_commits gen get_diff mode (pairs.map (fun p => p.1 ++ " " ++ p.2)) ckpt).plan.length
        = pairs.length
    ∧ ((pairs.map (fun p => p.1)).Nodup →
        ((rewrite_commits gen get_diff mode (pairs.map (fun p => p.1 ++ " " ++ p.2)) ckpt).plan.map
          Prod.fst).Nodup) := by
  have hsha : (get_commits (pairs.map (fun p => p.1 ++ " " ++ p.2))).map (fun c => c.sha)
      = (pairs.map (fun p => p.1)).reverse := by
    rw [get_commits_map_sha, ← List.map_reverse, List.map_map, ← List.map_reverse]
    apply List.map_congr_left
    intro p hp
    exact shaOfLine_joined p.1 p.2 (hsp p (List.mem_reverse.mp hp))
  have hmsg : (get_commits (pairs.map (fun p => p.1 ++ " " ++ p.2))).map (fun c => c.message)
      = (pairs.map (fun p => p.2)).reverse := by
    rw [get_commits_map_message, ← List.map_reverse, List.map_map, ← List.map_reverse]
    apply List.map_congr_left
    intro p hp
    exact msgOfLine_joined p.1 p.2 (hsp p (List.mem_reverse.mp hp))
  have hsha' : ((get_commits (pairs.map (fun p => p.1 ++ " " ++ p.2))).reverse).map (fun c => c.sha)
      = pairs.map (fun p => p.1) := by
    rw [List.map_reverse, hsha, List.reverse_reverse]
  have hmsg' : ((get_commits (pairs.map (fun p => p.1 ++ " " ++ p.2))).reverse).map (fun c => c.message)
      = pairs.map (fun p => p.2) := by
    rw [List.map_reverse, hmsg, List.reverse_reverse]
  have hplan : (rewrite_commits gen get_diff mode (pairs.map (fun p => p.1 ++ " " ++ p.2)) ckpt).plan.map Prod.fst
      = pairs.map (fun p => p.1) := by
    rw [rewrite_commits, runCommits, run_plan_fst, hsha']
    simp [initState]
  refine ⟨hsha, hsha', hmsg', hplan, ?_, ?_⟩
  · have hlen := congrArg List.length hplan
    rw [List.length_map, List.length_map] at hlen
    exact hlen
  · intro hnd
    rw [hplan]
    exact hnd

/-- Witness for C5 at a concrete two-line log. -/
theorem C5_oldest_first_plan_witness :
    (∀ p ∈ [("aaaa1111", "old one"), ("bbbb2222", "old two")], ' ' ∉ p.1.data)
    ∧ ((get_commits ([("aaaa1111", "old one"), ("bbbb2222", "old two")].map
            (fun p => p.1 ++ " " ++ p.2))).map (fun c => c.sha)
        = ([("aaaa1111", "old one"), ("bbbb2222", "old two")].map (fun p => p.1)).reverse
      ∧ ((get_commits ([("aaaa1111", "old one"), ("bbbb2222", "old two")].map
            (fun p => p.1 ++ " " ++ p.2))).reverse).map (fun c => c.sha)
          = [("aaaa1111", "old one"), ("bbbb2222", "old two")].map (fun p => p.1)
      ∧ ((get_commits ([("aaaa1111", "old one"), ("bbbb2222", "old two")].map
            (fun p => p.1 ++ " " ++ p.2))).reverse).map (fun c => c.message)
          = [("aaaa1111", "old one"), ("bbbb2222", "old two")].map (fun p => p.2)
      ∧ (rewrite_commits wGen wDiff Mode.dryRun
            ([("aaaa1111", "old one"), ("bbbb2222", "old two")].map
              (fun p => p.1 ++ " " ++ p.2)) wCkpt).plan.map Prod.fst
          = [("aaaa1111", "old one"), ("bbbb2222", "old two")].map (fun p => p.1)
      ∧ (rewrite_commits wGen wDiff Mode.dryRun
            ([("aaaa1111", "old one"), ("bbbb2222", "old two")].map
              (fun p => p.1 ++ " " ++ p.2)) wCkpt).plan.length
          = [("aaaa1111", "old one"), ("bbbb2222", "old two")].length
      ∧ (([("aaaa1111", "old one"), ("bbbb2222", "old two")].map (fun p => p.1)).Nodup →
          ((rewrite_commits wGen wDiff Mode.dryRun
              ([("aaaa1111", "old one"), ("bbbb2222", "old two")].map
                (fun p => p.1 ++ " " ++ p.2)) wCkpt).plan.map Prod.fst).Nodup)) :=
  ⟨by decide,
   C5_oldest_first_plan wGen wDiff Mode.dryRun
     [("aaaa1111", "old one"), ("bbbb2222", "old two")] wCkpt (by decide)⟩

/-! ### Claim C6 -/

/-- C6: the summarizer is NOT total on strings.  At a diff that splits into two
chunks, with every generation call failing, the per-chunk fallbacks are used
(2 calls), the combined summary exceeds `chunk_size`, and the meta-summary call's
failure value `None` is returned as-is (3rd call) — the function returns the
generator's failure value instead of a string, contradicting its declared
`-> str` contract. -/
theorem C6_meta_summary_failure_returns_none :
    summarize_diff (fun _ _ => none) "ab\ncd" 1 160000 = (none, 3)
    ∧ (summarize_diff (fun _ _ => none) "ab\ncd" 1 160000).1 ≠ some "" := by
  constructor
  · decide
  · decide

/-! ### Claim C2 — shell escaping (`escape_commit_message_for_shell`, lines 148-151,
and its use in `create_rebase_exec_script`, line 287)

The Python function first doubles every backslash, then replaces every single
quote by `'\''` (close quote, escaped quote, reopen quote), and the result is
embedded between single quotes as the `-m` argument of the generated
`exec git commit --amend --no-edit -m '...'` line.  `shellEval` models POSIX
shell word expansion for the constructs that can occur in that word: single-quoted
spans (everything literal until the closing quote) and backslash escapes outside
quotes. -/

/-- `message.replace("\\", "\\\\")` at the character level. -/
def doubleBackslashesL : List Char → List Char
  | [] => []
  | c :: cs =>
    if c = '\\' then '\\' :: '\\' :: doubleBackslashesL cs
    else c :: doubleBackslashesL cs

/-- `.replace("'", "'\\''")` at the character level (the replacement is the four
characters quote, backslash, quote, quote). -/
def escapeQuotesL : List Char → List Char
  | [] => []
  | c :: cs =>
    if c = '\'' then '\'' :: '\\' :: '\'' :: '\'' :: escapeQuotesL cs
    else c :: escapeQuotesL cs

/-- `escape_commit_message_for_shell` (lines 148-151): backslashes doubled first,
then single quotes escaped. -/
def escape_commit_message_for_shell (message : String) : String :=
  String.mk (escapeQuotesL (doubleBackslashesL message.data))

/-- The exec line emitted per commit (line 287 and line 190). -/
def execAmendLine (escaped_message : String) : String :=
  "exec git commit --amend --no-edit -m '" ++ escaped_message ++ "'"

/-- The single-quoted `-m` argument word of the exec line. -/
def shellSingleQuoted (message : String) : List Char :=
  '\'' :: (escape_commit_message_for_shell message).data ++ ['\'']

/-- POSIX shell word evaluation restricted to single quotes and backslash escapes:
outside quotes a quote opens a literal span, a backslash makes the next character
literal; inside quotes everything up to the next quote is literal.  Returns `none`
for an unterminated quote or trailing backslash. -/
def shellEval : Bool → List Char → Option (List Char)
  | true, [] => none
  | false, [] => some []
  | true, c :: cs =>
    if c = '\'' then shellEval false cs
    else (shellEval true cs).map (fun r => c :: r)
  | false, c :: cs =>
    if c = '\'' then shellEval true cs
    else if c = '\\' then
      match cs with
      | [] => none
      | d :: ds => (shellEval false ds).map (fun r => d :: r)
    else (shellEval false cs).map (fun r => c :: r)

theorem shellEval_true_quote (cs : List Char) :
    shellEval true ('\'' :: cs) = shellEval false cs := rfl

theorem shellEval_true_char (c : Char) (cs : List Char) (h : ¬ c = '\'') :
    shellEval true (c :: cs) = (shellEval true cs).map (fun r => c :: r) := by
  show (if c = '\'' then shellEval false cs
    else (shellEval true cs).map (fun r => c :: r)) = _
  rw [if_neg h]

theorem shellEval_false_quote (cs : List Char) :
    shellEval false ('\'' :: cs) = shellEval true cs := by
  cases cs with
  | nil => rfl
  | cons d ds => rfl

theorem shellEval_false_backslash (d : Char) (ds : List Char) :
    shellEval false ('\\' :: d :: ds) = (shellEval false ds).map (fun r => d :: r) := rfl

/-- Quote-escaping alone round-trips through a single-quoted context. -/
theorem shellEval_quoted_escape :
    ∀ s : List Char, shellEval true (escapeQuotesL s ++ ['\'']) = some s := by
  intro s
  induction s with
  | nil => rfl
  | cons c cs ih =>
    by_cases hc : c = '\''
    · subst hc
      simp only [escapeQuotesL]
      rw [if_pos trivial]
      simp only [List.cons_append]
      rw [shellEval_true_quote, shellEval_false_backslash, shellEval_false_quote, ih]
      rfl
    · simp only [escapeQuotesL]
      rw [if_neg hc]
      simp only [List.cons_append]
      rw [shellEval_true_char c _ hc, ih]
      rfl

/-- What the generated exec line actually passes to `git commit -m`: the original
message with every backslash doubled (quotes and newlines survive verbatim). -/
theorem shellEval_single_quoted (m : String) :
    shellEval false (shellSingleQuoted m) = some (doubleBackslashesL m.data) := by
  have h : shellEval false ('\'' :: (escapeQuotesL (doubleBackslashesL m.data) ++ ['\'']))
      = shellEval true (escapeQuotesL (doubleBackslashesL m.data) ++ ['\'']) :=
    shellEval_false_quote _
  exact h.trans (shellEval_quoted_escape _)

theorem doubleBackslashesL_id (s : List Char) (h : '\\' ∉ s) :
    doubleBackslashesL s = s := by
  induction s with
  | nil => rfl
  | cons c cs ih =>
    have hc : ¬ c = '\\' := fun he => h (he ▸ List.mem_cons_self c cs)
    rw [doubleBackslashesL, if_neg hc, ih (fun hm => h (List.mem_cons_of_mem c hm))]

/-- C2: the escaping does NOT round-trip.  For the one-character message `\`, the
escaped form embedded in the single-quoted `-m` argument evaluates to two
backslashes, not the original message — while a message containing single quotes
and newlines (but no backslash) does survive verbatim. -/
theorem C2_escape_round_trip_fails_on_backslash :
    escape_commit_message_for_shell "\\" = "\\\\"
    ∧ shellEval false (shellSingleQuoted "\\") = some "\\\\".data
    ∧ ¬ shellEval false (shellSingleQuoted "\\") = some "\\".data
    ∧ shellEval false (shellSingleQuoted "feat: add O'Brien handling\nSecond line")
        = some "feat: add O'Brien handling\nSecond line".data
    ∧ execAmendLine (escape_commit_message_for_shell "\\")
        = "exec git commit --amend --no-edit -m '\\\\'" := by
  refine ⟨by decide, by decide, by decide, by decide, by decide⟩

/-! ### Claim C4 — `save_checkpoint` (commit_rewriter.py lines 22-25)

```
os.makedirs(METADATA_DIR, exist_ok=True)
with open(CHECKPOINT_FILE, 'w') as f:
    json.dump(data, f, indent=2)
```

`open(path, 'w')` truncates the file in place at open time and `json.dump` then
streams the serialization into it; there is no temporary file and no rename.  The
filesystem is modelled as a directory set plus a path-to-content map, and
`save_checkpoint` as the observable step sequence make-directory, truncate,
write-content.  A concurrently scheduled reader (or a crash) can fall between any
two steps, observing the state after a proper prefix of the steps. -/

def METADATA_DIR : String := ".git-rewrite-ai"

def CHECKPOINT_FILE : String := ".git-rewrite-ai/checkpoint.json"

structure FS where
  dirs : List String
  files : List (String × String)
deriving DecidableEq, Repr

inductive FSOp
  | makedirs (d : String)
  | truncate (p : String)
  | writeContent (p : String) (content : String)
deriving DecidableEq, Repr

def readFile (fs : FS) (p : String) : Option String :=
  dictLookup fs.files p

def applyOp (fs : FS) : FSOp → FS
  | FSOp.makedirs d =>
    { fs with dirs := if d ∈ fs.dirs then fs.dirs else fs.dirs ++ [d] }
  | FSOp.truncate p => { fs with files := dictInsert fs.files p "" }
  | FSOp.writeContent p c => { fs with files := dictInsert fs.files p c }

def applyOps (ops : List FSOp) (fs : FS) : FS :=
  ops.foldl applyOp fs

/-- `save_checkpoint(data)` as its sequence of filesystem steps, where
`serialized` is the JSON serialization of `data`. -/
def save_checkpoint_ops (serialized : String) : List FSOp :=
  [FSOp.makedirs METADATA_DIR, FSOp.truncate CHECKPOINT_FILE,
   FSOp.writeContent CHECKPOINT_FILE serialized]

/-- A filesystem holding a previously persisted checkpoint. -/
def wFS : FS :=
  { dirs := [METADATA_DIR], files := [(CHECKPOINT_FILE, "old-checkpoint")] }

/-- C4 counterexample: the claimed atomicity is false.  With a previous checkpoint
on disk, there is a step prefix of `save_checkpoint` (after the in-place truncate,
before the write) at which the checkpoint file reads as neither the old nor the
new contents — a reader there observes a torn (empty) file, and a crash there has
already lost the old contents. -/
theorem C4_save_checkpoint_not_atomic :
    ∃ i, ¬ (readFile (applyOps ((save_checkpoint_ops "new-checkpoint").take i) wFS)
              CHECKPOINT_FILE = some "old-checkpoint"
          ∨ readFile (applyOps ((save_checkpoint_ops "new-checkpoint").take i) wFS)
              CHECKPOINT_FILE = some "new-checkpoint") :=
  ⟨2, by decide⟩

/-- C4 (amended): `save_checkpoint` creates the metadata directory when absent and
finally leaves the checkpoint file holding the serialized data, but the overwrite
is an in-place truncate-then-write, not an atomic replace: after the first two
steps the file reads as empty, so the previous contents are lost before the new
ones are durable. -/
theorem C4_save_checkpoint_overwrites_in_place (fs : FS) (serialized : String) :
    METADATA_DIR ∈ (applyOps (save_checkpoint_ops serialized) fs).dirs
    ∧ readFile (applyOps (save_checkpoint_ops serialized) fs) CHECKPOINT_FILE
        = some serialized
    ∧ readFile (applyOps ((save_checkpoint_ops serialized).take 2) fs) CHECKPOINT_FILE
        = some "" := by
  refine ⟨?_, ?_, ?_⟩
  · show METADATA_DIR ∈ (applyOp (applyOp (applyOp fs
      (FSOp.makedirs METADATA_DIR)) (FSOp.truncate CHECKPOINT_FILE))
      (FSOp.writeContent CHECKPOINT_FILE serialized)).dirs
    simp only [applyOp]
    by_cases h : METADATA_DIR ∈ fs.dirs
    · rw [if_pos h]; exact h
    · rw [if_neg h]; simp
  · show readFile (applyOp (applyOp (applyOp fs
      (FSOp.makedirs METADATA_DIR)) (FSOp.truncate CHECKPOINT_FILE))
      (FSOp.writeContent CHECKPOINT_FILE serialized)) CHECKPOINT_FILE = some serialized
    simp only [applyOp, readFile]
    rw [dictInsert_lookup]
    simp
  · show readFile (applyOp (applyOp fs
      (FSOp.makedirs METADATA_DIR)) (FSOp.truncate CHECKPOINT_FILE)) CHECKPOINT_FILE
      = some ""
    simp only [applyOp, readFile]
    rw [dictInsert_lookup]
    simp

/-! ### Claim C10 — missing API key (`get_ai_response`, ai_client.py lines 8-11)

```
api_key = os.getenv("OPENROUTER_API_KEY")
if not api_key:
    raise ValueError("Missing OPENROUTER_API_KEY environment variable")
```

The key check precedes the `try`/`except` that guards the HTTP request, so the
`ValueError` propagates — it is not converted to `None`.  The embedding threads
this exceptional behaviour with `Except` and counts HTTP requests issued (second
component): the error is raised before any request.  `generate_commit_message`'s
`... or "chore: update code"` applies only to a returned value, never to a raised
exception, and `rewrite_commits`' `except` clause re-raises (line 607). -/

def missingKeyMsg : String := "Missing OPENROUTER_API_KEY environment variable"

/-- The environment of the AI client: the `OPENROUTER_API_KEY` variable and the
network's behaviour when a request is actually issued. -/
structure AIEnv where
  apiKey : Option String
  net : String → Nat → Option String

/-- `get_ai_response` with exception tracking: raises when the key is missing
(0 requests issued); otherwise issues the request (1) and returns its optional
result. -/
def get_ai_responseE (env : AIEnv) (prompt : String) (maxTokens : Nat) :
    Except String (Option String) × Nat :=
  match env.apiKey with
  | none => (Except.error missingKeyMsg, 0)
  | some _ => (Except.ok (env.net prompt maxTokens), 1)

/-- The per-chunk summary loop of `summarize_diff` with exception threading. -/
def sumChunksE (env : AIEnv) (chunk_size : Nat) :
    List (Nat × String) → Except String (List String) × Nat
  | [] => (Except.ok [], 0)
  | (i, chunk) :: rest =>
    if strContains chunk "... (diff truncated)" then
      match sumChunksE env chunk_size rest with
      | (Except.error e, n) => (Except.error e, n)
      | (Except.ok ss, n) => (Except.ok ("... (additional changes truncated)" :: ss), n)
    else
      match get_ai_responseE env (chunkPromptFor chunk_size chunk) 600 with
      | (Except.error e, n) => (Except.error e, n)
      | (Except.ok osum, n) =>
        let s := match osum with
          | some t =>
            if t = "" then partFallback i chunk
            else "=== Part " ++ toString (i + 1) ++ " ===\n" ++ t
          | none => partFallback i chunk
        match sumChunksE env chunk_size rest with
        | (Except.error e, n2) => (Except.error e, n + n2)
        | (Except.ok ss, n2) => (Except.ok (s :: ss), n + n2)

/-- `summarize_diff` with exception threading. -/
def summarize_diffE (env : AIEnv) (diff : String) (chunk_size max_total : Nat) :
    Except String (Option String) × Nat :=
  if diff.length ≤ chunk_size then (Except.ok (some diff), 0)
  else
    let diff2 := if max_total < diff.length then pyTake diff max_total ++ "\n... (diff truncated)" else diff
    let chunks := chunkLoop chunk_size (pySplitLines diff2) [] 0
    if chunks.length = 1 then (Except.ok (some (chunks.headD "")), 0)
    else
      match sumChunksE env chunk_size chunks.enum with
      | (Except.error e, n) => (Except.error e, n)
      | (Except.ok summaries, n) =>
        let combined := pyJoin "\n\n" summaries
        if chunk_size < combined.length then
          match get_ai_responseE env (metaPromptFor chunk_size combined) 700 with
          | (r, n2) => (r, n + n2)
        else (Except.ok (some combined), n)

/-- `generate_commit_message` with exception threading: the fallback applies only
when the final call returns normally. -/
def generate_commit_messageE (env : AIEnv) (diff history_summary : String) :
    Except String String × Nat :=
  if 1000000 < diff.length then
    match summarize_diffE env diff 1000000 6000000 with
    | (Except.error e, n) => (Except.error e, n)
    | (Except.ok osum, n) =>
      match get_ai_responseE env (bigPrompt (pyStrOfOpt osum) history_summary) 300 with
      | (Except.error e, n2) => (Except.error e, n + n2)
      | (Except.ok r, n2) => (Except.ok (orFallback r), n + n2)
  else
    match get_ai_responseE env (smallPrompt diff history_summary) 300 with
    | (Except.error e, n) => (Except.error e, n)
    | (Except.ok r, n) => (Except.ok (orFallback r), n)

/-- The `rewrite_commits` loop with exception threading: a raised error aborts the
run (the `except` clause re-raises). -/
def runCommitsE (env : AIEnv) (get_diff : String → String) (mode : Mode) :
    List Commit → RunState → Except String RunState × Nat
  | [], st => (Except.ok st, 0)
  | c :: cs, st =>
    match dictLookup st.completed c.sha with
    | some m =>
      runCommitsE env get_diff mode cs (advanceState st c m 0 0 (cachedOutput m))
    | none =>
      match generate_commit_messageE env (get_diff c.sha) st.history_summary with
      | (Except.error e, n) => (Except.error e, n)
      | (Except.ok new_msg, n) =>
        match runCommitsE env get_diff mode cs
            (advanceState st c new_msg 1 1 (freshOutput mode c new_msg)) with
        | (r, n2) => (r, n + n2)

theorem get_ai_responseE_noKey (env : AIEnv) (h : env.apiKey = none)
    (prompt : String) (maxTokens : Nat) :
    get_ai_responseE env prompt maxTokens = (Except.error missingKeyMsg, 0) := by
  simp [get_ai_responseE, h]

theorem sumChunksE_noKey (env : AIEnv) (h : env.apiKey = none) (chunk_size : Nat) :
    ∀ l, sumChunksE env chunk_size l = (Except.error missingKeyMsg, 0)
      ∨ ∃ ss, sumChunksE env chunk_size l = (Except.ok ss, 0) := by
  intro l
  induction l with
  | nil => exact Or.inr ⟨[], rfl⟩
  | cons hd rest ih =>
    obtain ⟨i, chunk⟩ := hd
    by_cases htr : strContains chunk "... (diff truncated)"
    · rcases ih with herr | ⟨ss, hok⟩
      · left
        simp only [sumChunksE, if_pos htr, herr]
      · right
        exact ⟨"... (additional changes truncated)" :: ss, by
          simp only [sumChunksE, if_pos htr, hok]⟩
    · left
      simp only [sumChunksE, if_neg htr, get_ai_responseE_noKey env h]

theorem summarize_diffE_noKey (env : AIEnv) (h : env.apiKey = none)
    (diff : String) (chunk_size max_total : Nat) :
    summarize_diffE env diff chunk_size max_total = (Except.error missingKeyMsg, 0)
      ∨ ∃ o, summarize_diffE env diff chunk_size max_total = (Except.ok o, 0) := by
  unfold summarize_diffE
  by_cases h1 : diff.length ≤ chunk_size
  · right
    exact ⟨some diff, by rw [if_pos h1]⟩
  · rw [if_neg h1]
    set diff2 := if max_total < diff.length then pyTake diff max_total ++ "\n... (diff truncated)" else diff
    set chunks := chunkLoop chunk_size (pySplitLines diff2) [] 0
    by_cases h2 : chunks.length = 1
    · right
      exact ⟨some (chunks.headD ""), by rw [if_pos h2]⟩
    · rw [if_neg h2]
      rcases sumChunksE_noKey env h chunk_size chunks.enum with herr | ⟨ss, hok⟩
      · left
        rw [herr]
      · rw [hok]
        dsimp only
        set combined := pyJoin "\n\n" ss
        by_cases h3 : chunk_size < combined.length
        · left
          rw [if_pos h3, get_ai_responseE_noKey env h]
          rfl
        · right
          exact ⟨some combined, by rw [if_neg h3]⟩

theorem generate_commit_messageE_noKey (env : AIEnv) (h : env.apiKey = none)
    (diff history_summary : String) :
    generate_commit_messageE env diff history_summary
      = (Except.error missingKeyMsg, 0) := by
  unfold generate_commit_messageE
  by_cases h1 : 1000000 < diff.length
  · rw [if_pos h1]
    rcases summarize_diffE_noKey env h diff 1000000 6000000 with herr | ⟨o, hok⟩
    · rw [herr]
    · rw [hok]
      dsimp only
      rw [get_ai_responseE_noKey env h]
  · rw [if_neg h1, get_ai_responseE_noKey env h]

theorem runCommitsE_noKey (env : AIEnv) (get_diff : String → String) (mode : Mode)
    (h : env.apiKey = none) :
    ∀ (cs : List Commit) (st : RunState),
      (∃ c ∈ cs, dictLookup st.completed c.sha = none) →
      runCommitsE env get_diff mode cs st = (Except.error missingKeyMsg, 0) := by
  intro cs
  induction cs with
  | nil =>
    intro st hex
    obtain ⟨c, hc, _⟩ := hex
    exact absurd hc (List.not_mem_nil c)
  | cons c rest ih =>
    intro st hex
    cases hl : dictLookup st.completed c.sha with
    | some m =>
      obtain ⟨c0, hc0mem, hc0⟩ := hex
      have hc0rest : c0 ∈ rest := by
        rcases List.mem_cons.mp hc0mem with hce | hcr
        · subst hce
          rw [hl] at hc0
          exact Option.noConfusion hc0
        · exact hcr
      have hpres : dictLookup (advanceState st c m 0 0 (cachedOutput m)).completed c0.sha
          = none := by
        show dictLookup (dictInsert st.completed c.sha m) c0.sha = none
        rw [dictInsert_lookup_same st.completed c.sha m hl]
        exact hc0
      have := ih (advanceState st c m 0 0 (cachedOutput m)) ⟨c0, hc0rest, hpres⟩
      simp only [runCommitsE, hl]
      exact this
    | none =>
      simp only [runCommitsE, hl, generate_commit_messageE_noKey env h]

/-- C10: a missing `OPENROUTER_API_KEY` aborts the run rather than falling back.
With no key set, `get_ai_response` raises before issuing any request;
`generate_commit_message` propagates that error (the `"chore: update code"`
fallback is NOT applied); and a run over commits at least one of which needs a
fresh message aborts with that error, having issued zero generation requests. -/
theorem C10_missing_api_key_aborts (env : AIEnv) (get_diff : String → String)
    (mode : Mode) (commits : List Commit) (ckpt : Checkpoint)
    (hkey : env.apiKey = none)
    (hneed : ∃ c ∈ commits, dictLookup ckpt.completed_messages c.sha = none) :
    (∀ prompt maxTokens, get_ai_responseE env prompt maxTokens
        = (Except.error missingKeyMsg, 0))
    ∧ (∀ diff history_summary, generate_commit_messageE env diff history_summary
        = (Except.error missingKeyMsg, 0))
    ∧ runCommitsE env get_diff mode commits (initState ckpt)
        = (Except.error missingKeyMsg, 0) := by
  refine ⟨get_ai_responseE_noKey env hkey, generate_commit_messageE_noKey env hkey, ?_⟩
  apply runCommitsE_noKey env get_diff mode hkey
  obtain ⟨c, hc, hl⟩ := hneed
  exact ⟨c, hc, hl⟩

/-- An environment with the API key unset. -/
def wEnvNoKey : AIEnv := { apiKey := none, net := fun _ _ => some "response" }

/-- A checkpoint with an empty cache. -/
def wCkptEmpty : Checkpoint := { completed_messages := [], history_summary := "" }

/-- Witness for C10 at a concrete keyless run needing one fresh message. -/
theorem C10_missing_api_key_aborts_witness :
    (wEnvNoKey.apiKey = none
      ∧ ∃ c ∈ wCommits, dictLookup wCkptEmpty.completed_messages c.sha = none)
    ∧ ((∀ prompt maxTokens, get_ai_responseE wEnvNoKey prompt maxTokens
          = (Except.error missingKeyMsg, 0))
      ∧ (∀ diff history_summary, generate_commit_messageE wEnvNoKey diff history_summary
          = (Except.error missingKeyMsg, 0))
      ∧ runCommitsE wEnvNoKey wDiff Mode.dryRun wCommits (initState wCkptEmpty)
          = (Except.error missingKeyMsg, 0)) :=
  ⟨⟨rfl, by decide⟩,
   C10_missing_api_key_aborts wEnvNoKey wDiff Mode.dryRun wCommits wCkptEmpty rfl
     (by decide)⟩

end CommitRewrite
